import Mathlib

/-!
Verification of the divide-and-conquer reduction engine in
`FunctionalCPP/source/monoids.h` (`Monoids::AccumulateExperiments`).

The embedding models:
  * `LeftFold` — the `std::accumulate`-based sequential left fold;
  * `ReduceAux` — one call tree of `AccumulateExperiments::Reduce` after the
    function-local `static load` threshold has been initialised, with the
    threshold passed as an explicit parameter.  Machine iterators over a
    range become a `List`; splitting at the midpoint `begin + len/2` becomes
    `List.take (len/2)` / `List.drop (len/2)`.  A `fuel` parameter bounds the
    recursion depth; `none` models a C++ call that recurses without bound.
  * `ReduceSt` — the same recursion with the `static` threshold modelled as
    explicitly threaded state (`Option Nat`, `none` = not yet initialised),
    matching the C++ semantics of a function-local static: initialised by the
    first call ever to pass through the declaration, reused afterwards.
  * `Reduce` — a top-level call: runs `ReduceSt` with fuel `length + 1`
    (enough for every terminating configuration) on a given static state and
    returns the result together with the static state left behind.
  * `ReduceCount` — `ReduceAux` instrumented to also count the base-case
    sequential folds (leaf tasks); `leafCountN` is the same count as a
    function of the range length alone.
  * `LeftFoldE` / `ReduceAuxE` / `ReduceE` — the same functions over a
    combining operation that may fail (`Except`), modelling a combining
    operation that throws: `std::async` futures store the exception and
    `get()` rethrows it at the join point, which `Except`-bind mirrors.
-/

namespace Monoids

/-- Embeds `AccumulateExperiments::LeftFold`: `std::accumulate` over the whole
container, i.e. a sequential left fold of `combine` over `xs` starting from
`init`. -/
def LeftFold {α : Type} (combine : α → α → α) (init : α) (xs : List α) : α :=
  xs.foldl combine init

/-- Embeds one call tree of `AccumulateExperiments::Reduce` once the
function-local `static std::ptrdiff_t load` holds the value `load`:
if `distance(begin, end) ≤ load` return `std::accumulate(begin, end, init,
combine)`; otherwise split at `middle = begin + len/2`, reduce both halves
with the same `init` and `combine`, and return
`combine(combine(init, lhs), rhs)`.  `fuel` bounds the recursion depth and
`none` models non-termination of the C++ call. -/
def ReduceAux {α : Type} (combine : α → α → α) (load : Nat) :
    Nat → α → List α → Option α
  | 0, _, _ => none
  | fuel + 1, init, xs =>
    if xs.length ≤ load then
      some (LeftFold combine init xs)
    else
      match ReduceAux combine load fuel init (xs.take (xs.length / 2)),
            ReduceAux combine load fuel init (xs.drop (xs.length / 2)) with
      | some lhs, some rhs => some (combine (combine init lhs) rhs)
      | _, _ => none

/-- Embeds `AccumulateExperiments::Reduce` with the function-local
`static std::ptrdiff_t load` made explicit: the incoming `st : Option Nat` is
the static's state (`none` = not yet initialised).  On entry the static is
read, or initialised to `distance(begin, end) / hardware_concurrency` if this
is the first call ever; the recursion then threads the (now initialised)
state through both recursive calls, and the final state is returned next to
the result. -/
def ReduceSt {α : Type} (hc : Nat) (combine : α → α → α) :
    Nat → α → List α → Option Nat → Option α × Option Nat
  | 0, _, _, st => (none, st)
  | fuel + 1, init, xs, st =>
    let load := st.getD (xs.length / hc)
    if xs.length ≤ load then
      (some (LeftFold combine init xs), some load)
    else
      let lhs := ReduceSt hc combine fuel init (xs.take (xs.length / 2)) (some load)
      let rhs := ReduceSt hc combine fuel init (xs.drop (xs.length / 2)) lhs.2
      (match lhs.1, rhs.1 with
       | some l, some r => some (combine (combine init l) r)
       | _, _ => none,
       rhs.2)

/-- A top-level call of `AccumulateExperiments::Reduce` on the range `xs`
under hardware concurrency `hc`, starting from static state `st`
(`none` for the first call of the template instantiation).  The fuel
`xs.length + 1` exceeds the recursion depth of every terminating
configuration, so `none` in the first component means the C++ call does not
terminate. -/
def Reduce {α : Type} (hc : Nat) (combine : α → α → α) (init : α)
    (xs : List α) (st : Option Nat) : Option α × Option Nat :=
  ReduceSt hc combine (xs.length + 1) init xs st

/-- `ReduceAux` instrumented to also return the number of base-case
sequential folds (leaf tasks) the call performs.  The control flow is
identical to `ReduceAux`; only the leaf counter is added. -/
def ReduceCount {α : Type} (combine : α → α → α) (load : Nat) :
    Nat → α → List α → Option (α × Nat)
  | 0, _, _ => none
  | fuel + 1, init, xs =>
    if xs.length ≤ load then
      some (LeftFold combine init xs, 1)
    else
      match ReduceCount combine load fuel init (xs.take (xs.length / 2)),
            ReduceCount combine load fuel init (xs.drop (xs.length / 2)) with
      | some (lhs, kl), some (rhs, kr) =>
          some (combine (combine init lhs) rhs, kl + kr)
      | _, _ => none

/-- The leaf-task count of `ReduceAux` as a function of the range length
alone: the recursion of `ReduceAux` tests and splits only
`xs.length`, so the count depends only on the length and the threshold. -/
def leafCountN (load : Nat) : Nat → Nat → Option Nat
  | 0, _ => none
  | fuel + 1, n =>
    if n ≤ load then
      some 1
    else
      match leafCountN load fuel (n / 2), leafCountN load fuel (n - n / 2) with
      | some kl, some kr => some (kl + kr)
      | _, _ => none

/-- `LeftFold` over a combining operation that may fail: `std::accumulate`
applies `combine` left to right and a thrown exception aborts the fold and
propagates, which is exactly `List.foldlM` in the `Except` monad. -/
def LeftFoldE {α ε : Type} (combine : α → α → Except ε α) (init : α)
    (xs : List α) : Except ε α :=
  xs.foldlM combine init

/-- `ReduceAux` over a combining operation that may fail.  A future whose
task threw rethrows at `get()`, so the join
`combine(combine(init, lhsTask.get()), rhsTask.get())` propagates the first
exception it retrieves; `Except`-bind mirrors that.  As in `ReduceAux`,
`fuel` bounds the recursion depth and the outer `none` models
non-termination (a `get()` that never returns, so no exception surfaces). -/
def ReduceAuxE {α ε : Type} (combine : α → α → Except ε α) (load : Nat) :
    Nat → α → List α → Option (Except ε α)
  | 0, _, _ => none
  | fuel + 1, init, xs =>
    if xs.length ≤ load then
      some (LeftFoldE combine init xs)
    else
      match ReduceAuxE combine load fuel init (xs.take (xs.length / 2)),
            ReduceAuxE combine load fuel init (xs.drop (xs.length / 2)) with
      | some lhs, some rhs =>
          some (do
            let l ← lhs
            let r ← rhs
            let t ← combine init l
            combine t r)
      | _, _ => none

/-- A top-level call of `Reduce` with a failing combining operation and a
fresh static threshold: the threshold is initialised from this call's range,
as in `Reduce` applied to `st = none`. -/
def ReduceE {α ε : Type} (hc : Nat) (combine : α → α → Except ε α) (init : α)
    (xs : List α) : Option (Except ε α) :=
  ReduceAuxE combine (xs.length / hc) (xs.length + 1) init xs

/-- A concrete combining operation that raises on the element `9` and
otherwise adds, used to exercise the error-propagation claims on concrete
inputs. -/
def addFail9 (a b : Nat) : Except Unit Nat :=
  if b = 9 then Except.error () else Except.ok (a + b)

end Monoids
namespace Monoids

/-- Once the static threshold is initialised, the stateful recursion never
changes it and computes exactly the fixed-threshold recursion. -/
theorem ReduceSt_some {α : Type} (hc : Nat) (c : α → α → α) (L : Nat) :
    ∀ (fuel : Nat) (i : α) (xs : List α),
      ReduceSt hc c fuel i xs (some L) = (ReduceAux c L fuel i xs, some L) := by
  intro fuel
  induction fuel with
  | zero => intro i xs; rfl
  | succ n ih =>
    intro i xs
    simp only [ReduceSt, ReduceAux, Option.getD_some]
    by_cases h : xs.length ≤ L
    · simp [h]
    · simp only [h, if_false]
      rw [ih, ih]

/-- A first top-level call initialises the static threshold to
`length / hc` and then runs the fixed-threshold recursion with it. -/
theorem ReduceSt_none {α : Type} (hc : Nat) (c : α → α → α) :
    ∀ (fuel : Nat) (i : α) (xs : List α),
      ReduceSt hc c (fuel + 1) i xs none =
        (ReduceAux c (xs.length / hc) (fuel + 1) i xs, some (xs.length / hc)) := by
  intro fuel i xs
  simp only [ReduceSt, ReduceAux, Option.getD_none]
  by_cases h : xs.length ≤ xs.length / hc
  · simp [h]
  · simp only [h, if_false]
    rw [ReduceSt_some, ReduceSt_some]

theorem Reduce_none {α : Type} (hc : Nat) (c : α → α → α) (i : α) (xs : List α) :
    Reduce hc c i xs none =
      (ReduceAux c (xs.length / hc) (xs.length + 1) i xs, some (xs.length / hc)) :=
  ReduceSt_none hc c xs.length i xs

theorem Reduce_some {α : Type} (hc : Nat) (c : α → α → α) (i : α) (xs : List α) (L : Nat) :
    Reduce hc c i xs (some L) = (ReduceAux c L (xs.length + 1) i xs, some L) :=
  ReduceSt_some hc c L (xs.length + 1) i xs

/-- With a positive threshold and enough fuel, the recursion terminates. -/
theorem ReduceAux_isSome {α : Type} (c : α → α → α) (load : Nat) (hl : 1 ≤ load) :
    ∀ (fuel : Nat) (xs : List α) (i : α), xs.length < fuel →
      (ReduceAux c load fuel i xs).isSome := by
  intro fuel
  induction fuel with
  | zero => intro xs i h; omega
  | succ n ih =>
    intro xs i h
    simp only [ReduceAux]
    by_cases hb : xs.length ≤ load
    · simp [hb]
    · simp only [hb, if_false]
      have h2 : 2 ≤ xs.length := by omega
      have ht : (xs.take (xs.length / 2)).length < n := by
        simp only [List.length_take]
        omega
      have hd : (xs.drop (xs.length / 2)).length < n := by
        simp only [List.length_drop]
        omega
      have hL := ih (xs.take (xs.length / 2)) i ht
      have hR := ih (xs.drop (xs.length / 2)) i hd
      rcases Option.isSome_iff_exists.mp hL with ⟨l, hLeq⟩
      rcases Option.isSome_iff_exists.mp hR with ⟨r, hReq⟩
      rw [hLeq, hReq]
      rfl

end Monoids
namespace Monoids

/-- Shifting an element through a left fold under associativity. -/
theorem fold_pull {α : Type} (c : α → α → α)
    (hassoc : ∀ a b d : α, c (c a b) d = c a (c b d)) :
    ∀ (ys : List α) (a b : α), c a (LeftFold c b ys) = LeftFold c (c a b) ys := by
  intro ys
  induction ys with
  | nil => intro a b; rfl
  | cons y ys ih =>
    intro a b
    simp only [LeftFold, List.foldl_cons] at *
    rw [ih, hassoc]

/-- With an identity seed and an associative operation, the fixed-threshold
recursion computes the sequential left fold whenever it terminates. -/
theorem ReduceAux_eq_fold {α : Type} (c : α → α → α) (e : α) (load : Nat)
    (hassoc : ∀ a b d : α, c (c a b) d = c a (c b d))
    (hidl : ∀ a : α, c e a = a) (hidr : ∀ a : α, c a e = a)
    (hl : 1 ≤ load) :
    ∀ (fuel : Nat) (xs : List α), xs.length < fuel →
      ReduceAux c load fuel e xs = some (LeftFold c e xs) := by
  intro fuel
  induction fuel with
  | zero => intro xs h; omega
  | succ n ih =>
    intro xs h
    simp only [ReduceAux]
    by_cases hb : xs.length ≤ load
    · simp [hb]
    · simp only [hb, if_false]
      have h2 : 2 ≤ xs.length := by omega
      have ht : (xs.take (xs.length / 2)).length < n := by
        simp only [List.length_take]; omega
      have hd : (xs.drop (xs.length / 2)).length < n := by
        simp only [List.length_drop]; omega
      rw [ih _ ht, ih _ hd]
      show some (c (c e (LeftFold c e (xs.take (xs.length / 2))))
          (LeftFold c e (xs.drop (xs.length / 2)))) = some (LeftFold c e xs)
      have hsplit : LeftFold c e xs =
          LeftFold c (LeftFold c e (xs.take (xs.length / 2))) (xs.drop (xs.length / 2)) := by
        rw [LeftFold, LeftFold, LeftFold, ← List.foldl_append,
          List.take_append_drop]
      rw [hidl, fold_pull c hassoc, hidr, hsplit]

end Monoids
namespace Monoids

theorem except_bind_ok {α β ε : Type} (a : α) (f : α → Except ε β) :
    (Except.ok a >>= f) = f a := rfl

theorem except_bind_error {α β ε : Type} (e : ε) (f : α → Except ε β) :
    ((Except.error e : Except ε α) >>= f) = Except.error e := rfl

/-- If the combining operation fails only on `p` and always with `e`, then
every error it returns is `e`. -/
theorem combine_error_eq {α ε : Type} (c : α → α → Except ε α) (p : α) (e : ε)
    (Hp : ∀ a, c a p = Except.error e)
    (Hok : ∀ a x, x ≠ p → ∃ v, c a x = Except.ok v) :
    ∀ (a x : α) (f : ε), c a x = Except.error f → f = e := by
  intro a x f hf
  by_cases hx : x = p
  · rw [hx, Hp a] at hf
    exact (Except.error.injEq _ _).mp hf.symm
  · rcases Hok a x hx with ⟨v, hv⟩
    rw [hv] at hf
    exact absurd hf (by simp)

/-- A sequential fold over a list containing the failing element raises `e`. -/
theorem LeftFoldE_mem {α ε : Type} (c : α → α → Except ε α) (p : α) (e : ε)
    (Hp : ∀ a, c a p = Except.error e)
    (Hok : ∀ a x, x ≠ p → ∃ v, c a x = Except.ok v) :
    ∀ (ys : List α) (i : α), p ∈ ys → LeftFoldE c i ys = Except.error e := by
  intro ys
  induction ys with
  | nil => intro i h; exact absurd h (List.not_mem_nil p)
  | cons y ys ih =>
    intro i h
    by_cases hy : y = p
    · subst hy
      simp only [LeftFoldE, List.foldlM_cons, Hp i, except_bind_error]
    · rcases Hok i y hy with ⟨v, hv⟩
      have hmem : p ∈ ys := by
        rcases List.mem_cons.mp h with h1 | h1
        · exact absurd h1.symm hy
        · exact h1
      simp only [LeftFoldE, List.foldlM_cons, hv, except_bind_ok]
      exact ih v hmem

/-- Every error a sequential fold raises comes from the combining
operation, hence is `e`. -/
theorem LeftFoldE_error {α ε : Type} (c : α → α → Except ε α) (p : α) (e : ε)
    (Hp : ∀ a, c a p = Except.error e)
    (Hok : ∀ a x, x ≠ p → ∃ v, c a x = Except.ok v) :
    ∀ (ys : List α) (i : α) (f : ε),
      LeftFoldE c i ys = Except.error f → f = e := by
  intro ys
  induction ys with
  | nil =>
    intro i f h
    exact absurd h (by rw [LeftFoldE, List.foldlM_nil]; exact fun hh => Except.noConfusion hh)
  | cons y ys ih =>
    intro i f h
    rcases hcy : c i y with g | v
    · rw [LeftFoldE, List.foldlM_cons, hcy, except_bind_error] at h
      have : g = f := (Except.error.injEq _ _).mp h
      exact this ▸ combine_error_eq c p e Hp Hok i y g hcy
    · rw [LeftFoldE, List.foldlM_cons, hcy, except_bind_ok] at h
      exact ih v f h

end Monoids
namespace Monoids

/-- With a positive threshold and enough fuel, the failing-operation
recursion also terminates (with an `ok` or an `error` result). -/
theorem ReduceAuxE_isSome {α ε : Type} (c : α → α → Except ε α) (load : Nat)
    (hl : 1 ≤ load) :
    ∀ (fuel : Nat) (xs : List α) (i : α), xs.length < fuel →
      (ReduceAuxE c load fuel i xs).isSome := by
  intro fuel
  induction fuel with
  | zero => intro xs i h; omega
  | succ n ih =>
    intro xs i h
    simp only [ReduceAuxE]
    by_cases hb : xs.length ≤ load
    · simp [hb]
    · simp only [hb, if_false]
      have h2 : 2 ≤ xs.length := by omega
      have ht : (xs.take (xs.length / 2)).length < n := by
        simp only [List.length_take]; omega
      have hd : (xs.drop (xs.length / 2)).length < n := by
        simp only [List.length_drop]; omega
      rcases Option.isSome_iff_exists.mp (ih (xs.take (xs.length / 2)) i ht) with ⟨l, hLeq⟩
      rcases Option.isSome_iff_exists.mp (ih (xs.drop (xs.length / 2)) i hd) with ⟨r, hReq⟩
      rw [hLeq, hReq]
      rfl

/-- Every error the failing-operation recursion surfaces comes from the
combining operation, hence is `e`. -/
theorem ReduceAuxE_error {α ε : Type} (c : α → α → Except ε α) (p : α) (e : ε)
    (load : Nat)
    (Hp : ∀ a, c a p = Except.error e)
    (Hok : ∀ a x, x ≠ p → ∃ v, c a x = Except.ok v) :
    ∀ (fuel : Nat) (xs : List α) (i : α) (f : ε),
      ReduceAuxE c load fuel i xs = some (Except.error f) → f = e := by
  intro fuel
  induction fuel with
  | zero => intro xs i f h; exact absurd h (by simp [ReduceAuxE])
  | succ n ih =>
    intro xs i f h
    simp only [ReduceAuxE] at h
    by_cases hb : xs.length ≤ load
    · rw [if_pos hb] at h
      exact LeftFoldE_error c p e Hp Hok xs i f (Option.some.injEq _ _ ▸ h)
    · rw [if_neg hb] at h
      rcases hL : ReduceAuxE c load n i (xs.take (xs.length / 2)) with _ | l
      · rw [hL] at h; exact absurd h (by simp)
      rcases hR : ReduceAuxE c load n i (xs.drop (xs.length / 2)) with _ | r
      · rw [hL, hR] at h; exact absurd h (by simp)
      rw [hL, hR] at h
      have hbody : (do
          let lv ← l
          let rv ← r
          let t ← c i lv
          c t rv) = Except.error f := by
        have := (Option.some.injEq _ _).mp h
        exact this
      rcases l with g | lv
      · rw [except_bind_error] at hbody
        exact (Except.error.injEq _ _).mp hbody ▸ ih (xs.take (xs.length / 2)) i g hL
      rw [except_bind_ok] at hbody
      rcases r with g | rv
      · rw [except_bind_error] at hbody
        exact (Except.error.injEq _ _).mp hbody ▸ ih (xs.drop (xs.length / 2)) i g hR
      rw [except_bind_ok] at hbody
      rcases hc1 : c i lv with g | t
      · rw [hc1, except_bind_error] at hbody
        exact (Except.error.injEq _ _).mp hbody ▸ combine_error_eq c p e Hp Hok i lv g hc1
      rw [hc1, except_bind_ok] at hbody
      exact combine_error_eq c p e Hp Hok t rv f hbody

end Monoids
namespace Monoids

/-- Main error-propagation lemma: with a positive threshold, enough fuel, and
a combining operation that fails (always with `e`) exactly on `p`, the
recursion over any range containing `p` surfaces `Except.error e`. -/
theorem ReduceAuxE_mem {α ε : Type} (c : α → α → Except ε α) (p : α) (e : ε)
    (load : Nat) (hl : 1 ≤ load)
    (Hp : ∀ a, c a p = Except.error e)
    (Hok : ∀ a x, x ≠ p → ∃ v, c a x = Except.ok v) :
    ∀ (fuel : Nat) (xs : List α) (i : α), xs.length < fuel → p ∈ xs →
      ReduceAuxE c load fuel i xs = some (Except.error e) := by
  intro fuel
  induction fuel with
  | zero => intro xs i h hm; omega
  | succ n ih =>
    intro xs i h hm
    simp only [ReduceAuxE]
    by_cases hb : xs.length ≤ load
    · rw [if_pos hb, LeftFoldE_mem c p e Hp Hok xs i hm]
    · rw [if_neg hb]
      have h2 : 2 ≤ xs.length := by omega
      have ht : (xs.take (xs.length / 2)).length < n := by
        simp only [List.length_take]; omega
      have hd : (xs.drop (xs.length / 2)).length < n := by
        simp only [List.length_drop]; omega
      have hsplit : p ∈ xs.take (xs.length / 2) ∨ p ∈ xs.drop (xs.length / 2) := by
        rw [← List.mem_append, List.take_append_drop]
        exact hm
      rcases hsplit with hmem | hmem
      · rw [ih (xs.take (xs.length / 2)) i ht hmem]
        rcases Option.isSome_iff_exists.mp
          (ReduceAuxE_isSome c load hl n (xs.drop (xs.length / 2)) i hd) with ⟨r, hReq⟩
        rw [hReq]
        rfl
      · rcases Option.isSome_iff_exists.mp
          (ReduceAuxE_isSome c load hl n (xs.take (xs.length / 2)) i ht) with ⟨l, hLeq⟩
        rw [hLeq, ih (xs.drop (xs.length / 2)) i hd hmem]
        rcases l with g | lv
        · have : g = e := ReduceAuxE_error c p e load Hp Hok n _ i g hLeq
          rw [this]
          rfl
        · rfl

end Monoids
namespace Monoids

/-- The result component of the instrumented recursion is the recursion
itself. -/
theorem ReduceCount_fst {α : Type} (c : α → α → α) (load : Nat) :
    ∀ (fuel : Nat) (xs : List α) (i : α),
      (ReduceCount c load fuel i xs).map Prod.fst = ReduceAux c load fuel i xs := by
  intro fuel
  induction fuel with
  | zero => intro xs i; rfl
  | succ n ih =>
    intro xs i
    simp only [ReduceCount, ReduceAux]
    by_cases hb : xs.length ≤ load
    · simp [hb]
    · simp only [hb, if_false]
      rw [← ih (xs.take (xs.length / 2)) i, ← ih (xs.drop (xs.length / 2)) i]
      rcases ReduceCount c load n i (xs.take (xs.length / 2)) with _ | ⟨l, kl⟩
      · rfl
      rcases ReduceCount c load n i (xs.drop (xs.length / 2)) with _ | ⟨r, kr⟩
      · rfl
      rfl

/-- The leaf count of the instrumented recursion depends only on the range
length (and the threshold): the recursion tests and splits lengths only. -/
theorem ReduceCount_snd {α : Type} (c : α → α → α) (load : Nat) :
    ∀ (fuel : Nat) (xs : List α) (i : α),
      (ReduceCount c load fuel i xs).map Prod.snd = leafCountN load fuel xs.length := by
  intro fuel
  induction fuel with
  | zero => intro xs i; rfl
  | succ n ih =>
    intro xs i
    simp only [ReduceCount, leafCountN]
    by_cases hb : xs.length ≤ load
    · simp [hb]
    · simp only [hb, if_false]
      have htlen : (xs.take (xs.length / 2)).length = xs.length / 2 := by
        simp only [List.length_take]; omega
      have hdlen : (xs.drop (xs.length / 2)).length = xs.length - xs.length / 2 := by
        simp only [List.length_drop]
      have iht : (ReduceCount c load n i (xs.take (xs.length / 2))).map Prod.snd =
          leafCountN load n (xs.length / 2) := by
        rw [ih, htlen]
      have ihd : (ReduceCount c load n i (xs.drop (xs.length / 2))).map Prod.snd =
          leafCountN load n (xs.length - xs.length / 2) := by
        rw [ih, hdlen]
      rw [← iht, ← ihd]
      rcases ReduceCount c load n i (xs.take (xs.length / 2)) with _ | ⟨l, kl⟩
      · rfl
      rcases ReduceCount c load n i (xs.drop (xs.length / 2)) with _ | ⟨r, kr⟩
      · rfl
      rfl

/-- Every leaf of a split node covers at least `(load + 1) / 2` elements, so
the leaf count times that quantity is at most the range length. -/
theorem leafCountN_mul_le (load : Nat) (hl : 1 ≤ load) :
    ∀ (fuel n k : Nat), leafCountN load fuel n = some k →
      (load + 1) / 2 ≤ n → k * ((load + 1) / 2) ≤ n := by
  intro fuel
  induction fuel with
  | zero => intro n k h hn; exact absurd h (by simp [leafCountN])
  | succ m ih =>
    intro n k h hn
    simp only [leafCountN] at h
    by_cases hb : n ≤ load
    · rw [if_pos hb] at h
      have hk : k = 1 := ((Option.some.injEq _ _).mp h).symm
      rw [hk, one_mul]
      exact hn
    · rw [if_neg hb] at h
      rcases hL : leafCountN load m (n / 2) with _ | kl
      · rw [hL] at h; exact absurd h (by simp)
      rcases hR : leafCountN load m (n - n / 2) with _ | kr
      · rw [hL, hR] at h; exact absurd h (by simp)
      rw [hL, hR] at h
      have hk : k = kl + kr := ((Option.some.injEq _ _).mp h).symm
      have h1 : (load + 1) / 2 ≤ n / 2 := by omega
      have h2 : (load + 1) / 2 ≤ n - n / 2 := by omega
      have b1 := ih (n / 2) kl hL h1
      have b2 := ih (n - n / 2) kr hR h2
      calc k * ((load + 1) / 2) = kl * ((load + 1) / 2) + kr * ((load + 1) / 2) := by
            rw [hk, add_mul]
        _ ≤ n / 2 + (n - n / 2) := Nat.add_le_add b1 b2
        _ = n := by omega

/-- The leaf count of a non-empty range is at most twice the ceiling of
`length / load`. -/
theorem leafCountN_le (load : Nat) (hl : 1 ≤ load) :
    ∀ (fuel n k : Nat), leafCountN load fuel n = some k → 1 ≤ n →
      k ≤ 2 * ((n + load - 1) / load) := by
  intro fuel n k h hn
  have hq : n ≤ load * ((n + load - 1) / load) := by
    have hdm := Nat.div_add_mod (n + load - 1) load
    have hml : (n + load - 1) % load < load := Nat.mod_lt _ (by omega)
    omega
  by_cases hb : n ≤ load
  · have hk : k = 1 := by
      rcases fuel with _ | m
      · exact absurd h (by simp [leafCountN])
      · simp only [leafCountN, if_pos hb] at h
        exact ((Option.some.injEq _ _).mp h).symm
    have hq1 : 1 ≤ (n + load - 1) / load := by
      rw [Nat.le_div_iff_mul_le (by omega)]
      omega
    omega
  · have hhn : (load + 1) / 2 ≤ n := by omega
    have hmul := leafCountN_mul_le load hl fuel n k h hhn
    have hload : k * load ≤ 2 * n := by
      have : k * load ≤ k * (2 * ((load + 1) / 2)) :=
        Nat.mul_le_mul_left k (by omega)
      calc k * load ≤ k * (2 * ((load + 1) / 2)) := this
        _ = 2 * (k * ((load + 1) / 2)) := by ring
        _ ≤ 2 * n := by omega
    have h2q : k * load ≤ 2 * ((n + load - 1) / load) * load := by
      calc k * load ≤ 2 * n := hload
        _ ≤ 2 * (load * ((n + load - 1) / load)) := by omega
        _ = 2 * ((n + load - 1) / load) * load := by ring
    exact Nat.le_of_mul_le_mul_right h2q (by omega)

end Monoids
namespace Monoids

/-- With threshold 0, a call on a single-element range never terminates: the
split dispatches an empty left half and a right half identical to the
original range, so no amount of fuel produces a result. -/
theorem ReduceAux_zero_singleton {α : Type} (c : α → α → α) :
    ∀ (fuel : Nat) (i a : α), ReduceAux c 0 fuel i [a] = none := by
  intro fuel
  induction fuel with
  | zero => intro i a; rfl
  | succ n ih =>
    intro i a
    simp only [ReduceAux, List.length_singleton]
    rw [if_neg (by omega)]
    show (match ReduceAux c 0 n i ([a].take (1 / 2)),
            ReduceAux c 0 n i ([a].drop (1 / 2)) with
          | some lhs, some rhs => some (c (c i lhs) rhs)
          | _, _ => none) = none
    have hdrop : [a].drop (1 / 2) = [a] := rfl
    rw [hdrop, ih i a]
    rcases ReduceAux c 0 n i ([a].take (1 / 2)) with _ | l <;> rfl

/-- Claim C1, amended: for every finite range on which the call terminates —
the load factor `length / hc` is at least 1, or the range is empty — every
identity seed and every associative, commutative combining operation,
a fresh top-level `Reduce` call returns the value of the sequential left
fold. -/
theorem C1_amended {α : Type} (hc : Nat) (c : α → α → α) (e : α) (xs : List α)
    (_hhc : 1 ≤ hc)
    (hassoc : ∀ a b d : α, c (c a b) d = c a (c b d))
    (_hcomm : ∀ a b : α, c a b = c b a)
    (hidl : ∀ a : α, c e a = a) (hidr : ∀ a : α, c a e = a)
    (hterm : xs = [] ∨ 1 ≤ xs.length / hc) :
    (Reduce hc c e xs none).1 = some (LeftFold c e xs) := by
  rcases hterm with h | h
  · subst h
    rw [Reduce_none]
    simp [ReduceAux, LeftFold]
  · rw [Reduce_none]
    exact ReduceAux_eq_fold c e _ hassoc hidl hidr h _ xs (Nat.lt_succ_self _)

/-- Witness for C1: hardware concurrency 2, range `[1,2,3,4]`, seed 0,
addition — the parallel reduction equals the sequential fold, which is 10. -/
theorem C1_witness :
    (Reduce 2 Nat.add 0 [1, 2, 3, 4] none).1 = some (LeftFold Nat.add 0 [1, 2, 3, 4]) ∧
    LeftFold Nat.add 0 [1, 2, 3, 4] = 10 :=
  ⟨C1_amended 2 Nat.add 0 [1, 2, 3, 4] (by decide) (fun a b d => Nat.add_assoc a b d)
    (fun a b => Nat.add_comm a b) (fun a => Nat.zero_add a) (fun a => Nat.add_zero a)
    (Or.inr (by decide)), by decide⟩

/-- Counterexample to C1 as stated: with hardware concurrency 2, the valid
seed 0 and addition, a fresh `Reduce` call on the single-element range `[1]`
computes load factor 0 and recurses without bound (`none`), so it does not
return the sequential fold's value. -/
theorem C1_cex :
    (Reduce 2 Nat.add 0 [1] none).1 ≠ some (LeftFold Nat.add 0 [1]) := by
  decide

end Monoids
namespace Monoids

/-- Claim C2: whenever a call's subrange length exceeds the threshold in
effect, the recursion splits at the midpoint `length / 2`, reduces
`[begin, M)` and `[M, end)` each with the same seed and combining operation
as the parent call, and returns `combine(combine(seed, lhs), rhs)`. -/
theorem C2 {α : Type} (c : α → α → α) (load fuel : Nat) (i : α) (xs : List α)
    (hsplit : load < xs.length) :
    ReduceAux c load (fuel + 1) i xs =
      Option.bind (ReduceAux c load fuel i (xs.take (xs.length / 2)))
        (fun lhs => Option.bind (ReduceAux c load fuel i (xs.drop (xs.length / 2)))
          (fun rhs => some (c (c i lhs) rhs))) := by
  simp only [ReduceAux]
  rw [if_neg (by omega)]
  rcases ReduceAux c load fuel i (xs.take (xs.length / 2)) with _ | l
  · rfl
  rcases ReduceAux c load fuel i (xs.drop (xs.length / 2)) with _ | r
  · rfl
  rfl

/-- Witness for C2: threshold 1, range `[1,2]`, seed 0, addition — the call
splits into `[1]` and `[2]`, and `combine(combine(0, 1), 2) = 3`. -/
theorem C2_witness :
    (ReduceAux Nat.add 1 2 0 [1, 2] =
      Option.bind (ReduceAux Nat.add 1 1 0 ([1, 2].take ([1, 2].length / 2)))
        (fun lhs => Option.bind (ReduceAux Nat.add 1 1 0 ([1, 2].drop ([1, 2].length / 2)))
          (fun rhs => some (Nat.add (Nat.add 0 lhs) rhs)))) ∧
    ReduceAux Nat.add 1 2 0 [1, 2] = some 3 :=
  ⟨C2 Nat.add 1 1 0 [1, 2] (by decide), by decide⟩

/-- Claim C3, amended: the load factor is initialised on first entry of the
first top-level call of an instantiation to that call's `length / hc`, and
once the static holds a value it is fixed for every call tree and never
recomputed mid-recursion; a later top-level call therefore reuses the first
call's value rather than its own `length / hc` (see C9). -/
theorem C3_amended {α : Type} (hc : Nat) (c : α → α → α) (i : α) (xs : List α)
    (_hhc : 1 ≤ hc) :
    (Reduce hc c i xs none).2 = some (xs.length / hc) ∧
    (∀ (L fuel : Nat) (j : α) (ys : List α),
      (ReduceSt hc c fuel j ys (some L)).2 = some L) := by
  refine ⟨by rw [Reduce_none], ?_⟩
  intro L fuel j ys
  rw [ReduceSt_some]

/-- Witness for C3: a fresh call on an 8-element range under concurrency 2
stores threshold 4, and a recursion started with a stored threshold 4 keeps
it. -/
theorem C3_witness :
    (Reduce 2 Nat.add 0 [1, 1, 1, 1, 1, 1, 1, 1] none).2 =
      some ([(1 : Nat), 1, 1, 1, 1, 1, 1, 1].length / 2) ∧
    (∀ (L fuel : Nat) (j : Nat) (ys : List Nat),
      (ReduceSt 2 Nat.add fuel j ys (some L)).2 = some L) :=
  C3_amended 2 Nat.add 0 [1, 1, 1, 1, 1, 1, 1, 1] (by decide)

/-- Counterexample to C3 as stated: after a top-level call on an 8-element
range under concurrency 2 (which stores threshold 4), a second top-level
call on the 2-element range `[1,1]` runs with threshold 4, not with its own
`2 / 2 = 1` — so "for every top-level call, L equals that call's length
divided by the hardware concurrency" fails. -/
theorem C3_cex :
    (Reduce 2 Nat.add 0 [1, 1] (Reduce 2 Nat.add 0 [1, 1, 1, 1, 1, 1, 1, 1] none).2).2 = some 4 ∧
    (Reduce 2 Nat.add 0 [1, 1] (Reduce 2 Nat.add 0 [1, 1, 1, 1, 1, 1, 1, 1] none).2).2 ≠
      some ([(1 : Nat), 1].length / 2) := by
  exact ⟨by decide, by decide⟩

/-- Claim C4: `Reduce` on an empty range returns the seed unchanged, for
every hardware concurrency, seed, combining operation and static state; in
particular with seed 0 and addition the result is 0. -/
theorem C4 :
    (∀ (α : Type) (hc : Nat) (c : α → α → α) (i : α) (st : Option Nat),
      (Reduce hc c i [] st).1 = some i) ∧
    (Reduce 4 Nat.add 0 [] none).1 = some 0 := by
  constructor
  · intro α hc c i st
    rcases st with _ | L
    · rw [Reduce_none]
      simp [ReduceAux, LeftFold]
    · rw [Reduce_some]
      simp [ReduceAux, LeftFold]
  · decide

end Monoids
namespace Monoids

/-- Claim C5, amended: on a single-element range, whenever the threshold in
effect is at least 1 — a stored threshold `L ≥ 1`, or a fresh call under
hardware concurrency 1 — `Reduce` returns `combine(seed, element)`, the same
value as the sequential fold.  (A fresh call under hardware concurrency ≥ 2
instead computes threshold 0 and never terminates; see the
counterexample.) -/
theorem C5_amended {α : Type} (hc : Nat) (c : α → α → α) (i a : α) (L : Nat)
    (hL : 1 ≤ L) :
    (Reduce hc c i [a] (some L)).1 = some (c i a) ∧
    (Reduce 1 c i [a] none).1 = some (c i a) ∧
    LeftFold c i [a] = c i a := by
  refine ⟨?_, ?_, rfl⟩
  · rw [Reduce_some]
    simp [ReduceAux, LeftFold, hL]
  · rw [Reduce_none]
    simp [ReduceAux, LeftFold]

/-- Witness for C5: stored threshold 3 (or concurrency 1) on the range `[7]`
with seed 0 and addition gives `combine(0, 7)`. -/
theorem C5_witness :
    (Reduce 2 Nat.add 0 [7] (some 3)).1 = some (Nat.add 0 7) ∧
    (Reduce 1 Nat.add 0 [7] none).1 = some (Nat.add 0 7) ∧
    LeftFold Nat.add 0 [7] = Nat.add 0 7 :=
  C5_amended 2 Nat.add 0 7 3 (by decide)

/-- Counterexample to C5 as stated: a fresh top-level call on the
single-element range `[7]` under hardware concurrency 2 computes threshold
`1 / 2 = 0` and recurses without bound (`none`), so it does not produce the
sequential path's value `combine(0, 7) = 7`. -/
theorem C5_cex :
    (Reduce 2 Nat.add 0 [7] none).1 = none ∧
    (Reduce 2 Nat.add 0 [7] none).1 ≠ some (LeftFold Nat.add 0 [7]) := by
  exact ⟨by decide, by decide⟩

/-- Claim C6: an input on which `Reduce` differs from the sequential fold
because the non-identity seed 5 is reapplied to both halves and at the join:
under concurrency 2 the range `[1,2,3,4]` splits once, and
`Reduce` returns 25 while the sequential fold with the same seed returns
15. -/
theorem C6 :
    (Reduce 2 Nat.add 5 [1, 2, 3, 4] none).1 = some 25 ∧
    LeftFold Nat.add 5 [1, 2, 3, 4] = 15 ∧ (25 : Nat) ≠ 15 := by
  exact ⟨by decide, by decide, by decide⟩

end Monoids
namespace Monoids

/-- Claim C7, amended: if the combining operation raises (always the same
error `e`) exactly on the designated element `p`, and the load factor of the
fresh top-level call is at least 1 (so the call terminates), then `Reduce`
over any range containing `p` at any position surfaces `Except.error e` to
the top-level caller — never a default value or a partial result.  (With a
load factor of 0 the call recurses without bound and no error surfaces; see
the counterexample.) -/
theorem C7_amended {α ε : Type} (hc : Nat) (c : α → α → Except ε α) (p : α)
    (e : ε) (i : α) (xs : List α)
    (hload : 1 ≤ xs.length / hc) (hmem : p ∈ xs)
    (Hp : ∀ a, c a p = Except.error e)
    (Hok : ∀ a x, x ≠ p → ∃ v, c a x = Except.ok v) :
    ReduceE hc c i xs = some (Except.error e) :=
  ReduceAuxE_mem c p e (xs.length / hc) hload Hp Hok (xs.length + 1) xs i
    (Nat.lt_succ_self _) hmem

/-- Witness for C7: `addFail9` raises exactly on the element 9; under
concurrency 2 a fresh call on `[1, 9, 2, 3]` (load factor 2) surfaces the
error. -/
theorem C7_witness :
    ReduceE 2 addFail9 0 [1, 9, 2, 3] = some (Except.error ()) :=
  C7_amended 2 addFail9 9 () 0 [1, 9, 2, 3] (by decide) (by decide)
    (fun a => rfl)
    (fun a x hx => ⟨a + x, by simp [addFail9, hx]⟩)

/-- Counterexample to C7 as stated: `addFail9` raises on the element 9, yet
a fresh call under concurrency 2 on the range `[9]` — which contains 9 —
computes load factor 0 and recurses without bound, so no error ever reaches
the caller. -/
theorem C7_cex :
    addFail9 0 9 = Except.error () ∧ ReduceE 2 addFail9 0 [9] = none := by
  exact ⟨rfl, rfl⟩

end Monoids
namespace Monoids

/-- Claim C8, amended: the instrumented recursion computes the same result
as `ReduceAux`; its leaf-task count is deterministic — a function of the
range length and threshold only, identical across repeated calls on
same-length inputs, whatever the elements, seeds or operations — and for a
non-empty range with threshold ≥ 1 it is bounded by
`2 * ⌈length / load⌉` (each leaf of a split covers at least
`(load + 1) / 2` elements); the bound `⌈length / load⌉` itself can be
exceeded well beyond rounding tolerance (see the counterexample). -/
theorem C8_amended {α : Type} (c d : α → α → α) (load fuel : Nat) (i j : α)
    (xs ys : List α) (v : α) (k : Nat) :
    ((ReduceCount c load fuel i xs).map Prod.fst = ReduceAux c load fuel i xs) ∧
    (xs.length = ys.length →
      (ReduceCount c load fuel i xs).map Prod.snd =
        (ReduceCount d load fuel j ys).map Prod.snd) ∧
    (1 ≤ load → 1 ≤ xs.length → ReduceCount c load fuel i xs = some (v, k) →
      k ≤ 2 * ((xs.length + load - 1) / load)) := by
  refine ⟨ReduceCount_fst c load fuel xs i, ?_, ?_⟩
  · intro hlen
    rw [ReduceCount_snd, ReduceCount_snd, hlen]
  · intro hl hn hsome
    have hsnd : (ReduceCount c load fuel i xs).map Prod.snd = some k := by
      rw [hsome]
      rfl
    rw [ReduceCount_snd] at hsnd
    exact leafCountN_le load hl fuel xs.length k hsnd hn

/-- Witness for C8: threshold 2 on the 4-element ranges `[1,1,1,1]` (with
addition, seed 0) and `[2,3,4,5]` (with multiplication, seed 0) — same
result as `ReduceAux`, equal leaf counts, and the count 2 is within
`2 * ⌈4 / 2⌉ = 4`. -/
theorem C8_witness :
    ((ReduceCount Nat.add 2 5 0 [1, 1, 1, 1]).map Prod.fst =
      ReduceAux Nat.add 2 5 0 [1, 1, 1, 1]) ∧
    ((ReduceCount Nat.add 2 5 0 [1, 1, 1, 1]).map Prod.snd =
      (ReduceCount Nat.mul 2 5 0 [2, 3, 4, 5]).map Prod.snd) ∧
    (2 : Nat) ≤ 2 * ((([(1 : Nat), 1, 1, 1]).length + 2 - 1) / 2) := by
  have h := C8_amended Nat.add Nat.mul 2 5 0 0 [1, 1, 1, 1] [2, 3, 4, 5] 4 2
  exact ⟨h.1, h.2.1 (by decide), h.2.2 (by decide) (by decide) (by decide)⟩

/-- Counterexample to C8 as stated: a reduction of a 1024-element range with
threshold 3 (e.g. hardware concurrency 300) performs 512 leaf folds, while
`⌈1024 / 3⌉ = 342` — the claimed bound is exceeded by 170, far beyond small
rounding tolerance. -/
theorem C8_cex :
    (ReduceCount Nat.add 3 11 0 (List.replicate 1024 (0 : Nat))).map Prod.snd = some 512 ∧
    (1024 + 3 - 1) / 3 = 342 ∧ ¬ (512 ≤ 342) := by
  refine ⟨?_, by decide, by decide⟩
  rw [ReduceCount_snd]
  simp only [List.length_replicate]
  decide

end Monoids
namespace Monoids

/-- Claim C9: the threshold is a function-local static per instantiation —
a fresh first call initialises it from its own range (`length / hc`), and a
later top-level call started with a stored threshold `L` runs entirely with
`L` (the fixed-threshold recursion), not with a fresh `length / hc` of its
own. -/
theorem C9 {α : Type} (hc : Nat) (c : α → α → α) (i j : α)
    (xs ys : List α) (L : Nat) (_hhc : 1 ≤ hc) :
    (Reduce hc c i xs none).2 = some (xs.length / hc) ∧
    Reduce hc c j ys (some L) = (ReduceAux c L (ys.length + 1) j ys, some L) :=
  ⟨by rw [Reduce_none], Reduce_some hc c j ys L⟩

/-- Witness for C9: a first call on an 8-element range under concurrency 2
stores 4; a second call on the 2-element range `[1,1]` started from that
state runs with threshold 4 — the stored value, not `2 / 2 = 1`. -/
theorem C9_witness :
    (Reduce 2 Nat.add 0 [1, 1, 1, 1, 1, 1, 1, 1] none).2 =
      some ([(1 : Nat), 1, 1, 1, 1, 1, 1, 1].length / 2) ∧
    Reduce 2 Nat.add 0 [1, 1] (some 4) =
      (ReduceAux Nat.add 4 ([(1 : Nat), 1].length + 1) 0 [1, 1], some 4) :=
  C9 2 Nat.add 0 0 [1, 1, 1, 1, 1, 1, 1, 1] [1, 1] 4 (by decide)

/-- Claim C10: with a threshold of at least 1, every call terminates (fuel
exceeding the range length always yields a result, since every split of a
range of length ≥ 2 strictly shortens both halves and length ≤ 1 hits the
base case); a fresh top-level call whose range is shorter than the hardware
concurrency stores threshold 0; a single-element range splits into an empty
left half and a right half identical to itself; and with threshold 0 a call
on a single-element range never terminates, whatever the fuel. -/
theorem C10 {α : Type} (c : α → α → α) :
    (∀ (load : Nat), 1 ≤ load → ∀ (fuel : Nat) (xs : List α) (i : α),
      xs.length < fuel → (ReduceAux c load fuel i xs).isSome) ∧
    (∀ (hc : Nat) (i : α) (xs : List α), xs.length < hc →
      (Reduce hc c i xs none).2 = some 0) ∧
    (∀ (a : α), [a].take ([a].length / 2) = [] ∧ [a].drop ([a].length / 2) = [a]) ∧
    (∀ (fuel : Nat) (i a : α), ReduceAux c 0 fuel i [a] = none) := by
  refine ⟨ReduceAux_isSome c, ?_, fun a => ⟨by simp, by simp⟩, ReduceAux_zero_singleton c⟩
  intro hc i xs hlt
  rw [Reduce_none, Nat.div_eq_of_lt hlt]

/-- Witness for C10: threshold 1 terminates on `[1, 2]`; a fresh call on a
3-element range under concurrency 5 stores threshold 0; the singleton `[7]`
splits into `[]` and `[7]`; and with threshold 0 the call on `[7]` yields no
result even with fuel 6. -/
theorem C10_witness :
    (ReduceAux Nat.add 1 3 0 [1, 2]).isSome ∧
    (Reduce 5 Nat.add 0 [1, 2, 3] none).2 = some 0 ∧
    ([(7 : Nat)].take ([(7 : Nat)].length / 2) = [] ∧
      [(7 : Nat)].drop ([(7 : Nat)].length / 2) = [(7 : Nat)]) ∧
    ReduceAux Nat.add 0 6 0 [7] = none :=
  ⟨(C10 Nat.add).1 1 (by decide) 3 [1, 2] 0 (by decide),
   (C10 Nat.add).2.1 5 0 [1, 2, 3] (by decide),
   (C10 Nat.add).2.2.1 7,
   (C10 Nat.add).2.2.2 6 0 7⟩

end Monoids
